import Mathlib

/-!
Verification of the resolution library's core against its specification.

The development shallowly embeds the TypeScript sources:

* `src/utils/namehash.ts` — the recursive EIP-137-style namehash (`hashArray`,
  `eip137Namehash` / `znsNamehash`, `arrayToHex`), parameterised by the digest;
* a concrete SHA-256 (the `js-sha256` dependency bound by `znsNamehash` and
  `Zns.childhash`), executable over byte lists;
* `Resolution.ts` — `formatNamehash`, `callForDomain`, `callForDomainBoolean`,
  `allNonEmptyRecords`;
* `utils/index.ts` — the dotted-key `set` used to structure resolver records;
* the `Zns` naming service — `resolve`, `address`, `owner`,
  `getRecordsAddresses`, `getResolverRecords`, `structureResolverRecords`,
  `childhash`, `isSupportedDomain`.

JavaScript strings are embedded as `List Char`, byte arrays as `List Nat`
(each element `< 256`), JSON-ish record trees as the inductive `JVal`.
-/

/-- Character list of a string literal (JS strings are embedded as `List Char`). -/
def chars (s : String) : List Char := s.data

/-- Split a character list at every dot, JavaScript `s.split('.')` semantics:
the empty string yields one empty group, `"a."` yields `["a", ""]`. -/
def splitDot : List Char → List (List Char)
  | [] => [[]]
  | c :: cs =>
    if c = '.' then [] :: splitDot cs
    else
      match splitDot cs with
      | [] => [[c]]
      | g :: gs => (c :: g) :: gs

/-- Join groups with a dot, JavaScript `groups.join('.')` semantics. -/
def joinDot : List (List Char) → List Char
  | [] => []
  | [g] => g
  | g :: g2 :: gs => g ++ '.' :: joinDot (g2 :: gs)

theorem splitDot_ne_nil (s : List Char) : splitDot s ≠ [] := by
  cases s with
  | nil => simp [splitDot]
  | cons c cs =>
    simp only [splitDot]
    by_cases h : c = '.'
    · simp [h]
    · simp only [if_neg h]
      cases splitDot cs <;> simp

theorem joinDot_splitDot (s : List Char) : joinDot (splitDot s) = s := by
  induction s with
  | nil => rfl
  | cons c cs ih =>
    simp only [splitDot]
    by_cases h : c = '.'
    · subst h
      simp only [if_pos rfl]
      rcases hg : splitDot cs with _ | ⟨g, gs⟩
      · exact absurd hg (splitDot_ne_nil cs)
      · rw [hg] at ih
        simpa [joinDot] using ih
    · simp only [if_neg h]
      rcases hg : splitDot cs with _ | ⟨g, gs⟩
      · exact absurd hg (splitDot_ne_nil cs)
      · rw [hg] at ih
        cases gs with
        | nil => simpa [joinDot] using congrArg (c :: ·) ih
        | cons g2 gs2 => simpa [joinDot] using congrArg (c :: ·) ih

/-- Groups produced by `splitDot` never contain a dot. -/
theorem splitDot_no_dot (s : List Char) : ∀ g ∈ splitDot s, '.' ∉ g := by
  induction s with
  | nil =>
    intro g hg
    simp only [splitDot, List.mem_singleton] at hg
    simp [hg]
  | cons c cs ih =>
    intro g hg
    by_cases h : c = '.'
    · rw [splitDot, if_pos h] at hg
      rcases List.mem_cons.mp hg with hg1 | hg1
      · simp [hg1]
      · exact ih g hg1
    · rcases hs : splitDot cs with _ | ⟨g0, gs⟩
      · exact absurd hs (splitDot_ne_nil cs)
      · rw [splitDot, if_neg h, hs] at hg
        rcases List.mem_cons.mp hg with hg1 | hg1
        · subst hg1
          intro hmem
          rcases List.mem_cons.mp hmem with h1 | h1
          · exact h h1.symm
          · exact ih g0 (by rw [hs]; exact List.mem_cons_self g0 gs) h1
        · exact ih g (by rw [hs]; exact List.mem_cons_of_mem g0 hg1)

/-- A dot-free character list splits into a single group. -/
theorem splitDot_dotfree (g : List Char) (h : '.' ∉ g) : splitDot g = [g] := by
  induction g with
  | nil => rfl
  | cons c cs ih =>
    have hc : c ≠ '.' := fun hc => h (by simp [hc])
    have hcs : '.' ∉ cs := fun hm => h (List.mem_cons_of_mem c hm)
    simp only [splitDot, if_neg hc, ih hcs]

/-- Splitting past a dot-free head group peels it off. -/
theorem splitDot_append_dot (g t : List Char) (h : '.' ∉ g) :
    splitDot (g ++ '.' :: t) = g :: splitDot t := by
  induction g with
  | nil => simp [splitDot]
  | cons c cs ih =>
    have hc : c ≠ '.' := fun hc => h (by simp [hc])
    have hcs : '.' ∉ cs := fun hm => h (List.mem_cons_of_mem c hm)
    show splitDot (c :: (cs ++ '.' :: t)) = (c :: cs) :: splitDot t
    rw [splitDot, if_neg hc, ih hcs]

/-- Splitting a join of dot-free groups recovers the groups. -/
theorem splitDot_joinDot (gs : List (List Char)) (h1 : gs ≠ [])
    (h2 : ∀ g ∈ gs, '.' ∉ g) : splitDot (joinDot gs) = gs := by
  induction gs with
  | nil => exact absurd rfl h1
  | cons g gs ih =>
    cases gs with
    | nil => simpa [joinDot] using splitDot_dotfree g (h2 g (by simp))
    | cons g2 gs2 =>
      have hg : '.' ∉ g := h2 g (by simp)
      have hrest : ∀ x ∈ g2 :: gs2, '.' ∉ x := fun x hx =>
        h2 x (List.mem_cons_of_mem g hx)
      simp only [joinDot, splitDot_append_dot g _ hg,
        ih (by simp) hrest]

/-- An empty last group of `splitDot` means the string is empty or ends in a dot. -/
theorem splitDot_getLast?_nil (d : List Char) (h : (splitDot d).getLast? = some []) :
    d = [] ∨ d.getLast? = some '.' := by
  induction d with
  | nil => exact Or.inl rfl
  | cons c cs ih =>
    by_cases hc : c = '.'
    · rcases hs : splitDot cs with _ | ⟨g, gs⟩
      · exact absurd hs (splitDot_ne_nil cs)
      · rw [splitDot, if_pos hc, hs, List.getLast?_cons_cons] at h
        rcases ih (by rw [hs]; exact h) with h1 | h1
        · subst h1
          simp only [splitDot] at hs
          right
          subst hc
          simp
        · right
          have hcs : cs ≠ [] := by
            intro he
            rw [he] at h1
            simp at h1
          rcases List.exists_cons_of_ne_nil hcs with ⟨x, xs, hx⟩
          subst hx
          rw [List.getLast?_cons_cons]
          exact h1
    · rcases hs : splitDot cs with _ | ⟨g, gs⟩
      · exact absurd hs (splitDot_ne_nil cs)
      · rw [splitDot, if_neg hc, hs] at h
        cases gs with
        | nil => simp at h
        | cons g2 gs2 =>
          rw [List.getLast?_cons_cons] at h
          have h2 : (splitDot cs).getLast? = some [] := by
            rw [hs, List.getLast?_cons_cons]
            exact h
          rcases ih h2 with h1 | h1
          · rw [h1] at hs
            simp [splitDot] at hs
          · right
            have hcs : cs ≠ [] := by
              intro he
              rw [he] at h1
              simp at h1
            rcases List.exists_cons_of_ne_nil hcs with ⟨x, xs, hx⟩
            subst hx
            rw [List.getLast?_cons_cons]
            exact h1

/-- UTF-8 bytes of one code point, as `js-sha256` / `js-sha3` encode string input. -/
def utf8Bytes (n : Nat) : List Nat :=
  if n < 128 then [n]
  else if n < 2048 then [192 ||| (n >>> 6), 128 ||| (n &&& 63)]
  else if n < 65536 then
    [224 ||| (n >>> 12), 128 ||| ((n >>> 6) &&& 63), 128 ||| (n &&& 63)]
  else
    [240 ||| (n >>> 18), 128 ||| ((n >>> 12) &&& 63),
      128 ||| ((n >>> 6) &&& 63), 128 ||| (n &&& 63)]

/-- Byte encoding of a JS string (UTF-8), fed to the digest functions. -/
def strBytes (s : List Char) : List Nat := s.flatMap (fun c => utf8Bytes c.toNat)

/-- Helper for `hashArray` termination: the joined remainder is shorter. -/
theorem joinDot_tail_lt (d : List Char) (label : List Char)
    (remainder : List (List Char)) (h : d ≠ [])
    (hs : splitDot d = label :: remainder) :
    (joinDot remainder).length < d.length := by
  have h2 : joinDot (label :: remainder) = d := by rw [← hs]; exact joinDot_splitDot d
  cases remainder with
  | nil =>
    simp only [joinDot]
    exact List.length_pos.mpr h
  | cons g gs =>
    rw [joinDot] at h2
    rw [← h2]
    simp only [List.length_append, List.length_cons]
    omega

/-- Embedding of `hashArray` from `src/utils/namehash.ts`, parameterised by the
digest (`js-sha3`'s keccak-256 or `js-sha256`): an empty domain is 32 zero
bytes; otherwise the first label is split off, the remainder is re-joined with
dots and hashed recursively, and the result is
`digest(remainderHash ++ digest(label))`. -/
def hashArray (digest : List Nat → List Nat) (domain : List Char) : List Nat :=
  if h : domain = [] then List.replicate 32 0
  else
    match hs : splitDot domain with
    | [] => (splitDot_ne_nil domain hs).elim
    | label :: remainder =>
      digest (hashArray digest (joinDot remainder) ++ digest (strBytes label))
termination_by domain.length
decreasing_by
  exact joinDot_tail_lt domain label remainder h hs

/-- Unfolding of `hashArray` at the empty domain. -/
theorem hashArray_nil (digest : List Nat → List Nat) :
    hashArray digest [] = List.replicate 32 0 := by
  rw [hashArray]
  simp

/-- Unfolding of `hashArray` at a non-empty domain. -/
theorem hashArray_cons (digest : List Nat → List Nat) (d : List Char)
    (h : d ≠ []) (label : List Char) (remainder : List (List Char))
    (hs : splitDot d = label :: remainder) :
    hashArray digest d =
      digest (hashArray digest (joinDot remainder) ++ digest (strBytes label)) := by
  rw [hashArray]
  rw [dif_neg h]
  split
  · next heq => exact absurd heq (splitDot_ne_nil d)
  · next l r heq =>
    rw [hs] at heq
    cases heq
    rfl

/-- Recursive definition of the namehash from the spec, on the label list:
`hash([]) = 32 zero bytes`, `hash([label, ...rest]) = digest(hash(rest) ++
digest(label))` with `digest` over raw bytes. -/
def specHashLabels (digest : List Nat → List Nat) : List (List Char) → List Nat
  | [] => List.replicate 32 0
  | label :: rest => digest (specHashLabels digest rest ++ digest (strBytes label))

/-- Namehash as the spec words it: split the domain into labels on `.`, the
empty domain hashes to 32 zero bytes, a non-empty label list hashes by
`specHashLabels`. -/
def specNamehash (digest : List Nat → List Nat) (domain : List Char) : List Nat :=
  if domain = [] then List.replicate 32 0 else specHashLabels digest (splitDot domain)

/-- On a joined list of dot-free labels whose last label is non-empty, the
code's `hashArray` agrees with the spec's label-list recursion. -/
theorem hashArray_joinDot (digest : List Nat → List Nat)
    (labels : List (List Char)) (h1 : labels ≠ [])
    (h2 : ∀ g ∈ labels, '.' ∉ g) (h3 : labels.getLast? ≠ some []) :
    hashArray digest (joinDot labels) = specHashLabels digest labels := by
  induction labels with
  | nil => exact absurd rfl h1
  | cons g gs ih =>
    cases gs with
    | nil =>
      have hg : g ≠ [] := by
        intro he
        exact h3 (by rw [he]; rfl)
      have hd : '.' ∉ g := h2 g (by simp)
      rw [show joinDot [g] = g from rfl,
        hashArray_cons digest g hg g [] (splitDot_dotfree g hd),
        show joinDot ([] : List (List Char)) = [] from rfl, hashArray_nil]
      rfl
    | cons g2 gs2 =>
      have hg : '.' ∉ g := h2 g (by simp)
      have hrest : ∀ x ∈ g2 :: gs2, '.' ∉ x := fun x hx =>
        h2 x (List.mem_cons_of_mem g hx)
      have hjoin : joinDot (g :: g2 :: gs2) = g ++ '.' :: joinDot (g2 :: gs2) := rfl
      have hne : g ++ '.' :: joinDot (g2 :: gs2) ≠ [] := by simp
      have hsplit : splitDot (g ++ '.' :: joinDot (g2 :: gs2)) = g :: (g2 :: gs2) := by
        rw [splitDot_append_dot g _ hg, splitDot_joinDot (g2 :: gs2) (by simp) hrest]
      rw [hjoin, hashArray_cons digest _ hne g (g2 :: gs2) hsplit,
        ih (by simp) hrest (by rw [← List.getLast?_cons_cons (l := gs2) (a := g)]; exact h3)]
      rfl

/-- Big-endian bytes of a natural number, fixed width `k`. -/
def natToBE : Nat → Nat → List Nat
  | 0, _ => []
  | k + 1, n => natToBE k (n / 256) ++ [n % 256]

/-- Truncation to a 32-bit word. -/
def w32 (n : Nat) : Nat := n % 4294967296

/-- Right rotation of a 32-bit word. -/
def rotr (k x : Nat) : Nat := w32 ((x >>> k) ||| (x <<< (32 - k)))

def sha256ch (x y z : Nat) : Nat := (x &&& y) ^^^ ((x ^^^ 4294967295) &&& z)

def sha256maj (x y z : Nat) : Nat := (x &&& y) ^^^ (x &&& z) ^^^ (y &&& z)

def bsig0 (x : Nat) : Nat := rotr 2 x ^^^ rotr 13 x ^^^ rotr 22 x

def bsig1 (x : Nat) : Nat := rotr 6 x ^^^ rotr 11 x ^^^ rotr 25 x

def ssig0 (x : Nat) : Nat := rotr 7 x ^^^ rotr 18 x ^^^ (x >>> 3)

def ssig1 (x : Nat) : Nat := rotr 17 x ^^^ rotr 19 x ^^^ (x >>> 10)

/-- SHA-256 round constants (FIPS 180-4, rendered in decimal). -/
def sha256K : List Nat :=
  [1116352408, 1899447441, 3049323471, 3921009573, 961987163,
   1508970993, 2453635748, 2870763221, 3624381080, 310598401,
   607225278, 1426881987, 1925078388, 2162078206, 2614888103,
   3248222580, 3835390401, 4022224774, 264347078, 604807628,
   770255983, 1249150122, 1555081692, 1996064986, 2554220882,
   2821834349, 2952996808, 3210313671, 3336571891, 3584528711,
   113926993, 338241895, 666307205, 773529912, 1294757372,
   1396182291, 1695183700, 1986661051, 2177026350, 2456956037,
   2730485921, 2820302411, 3259730800, 3345764771, 3516065817,
   3600352804, 4094571909, 275423344, 430227734, 506948616,
   659060556, 883997877, 958139571, 1322822218, 1537002063,
   1747873779, 1955562222, 2024104815, 2227730452, 2361852424,
   2428436474, 2756734187, 3204031479, 3329325298]

/-- SHA-256 initial state (FIPS 180-4, rendered in decimal). -/
def sha256H0 : List Nat :=
  [1779033703, 3144134277, 1013904242, 2773480762, 1359893119,
   2600822924, 528734635, 1541459225]

/-- Pack bytes into big-endian 32-bit words. -/
def bytesToWords : List Nat → List Nat
  | b0 :: b1 :: b2 :: b3 :: rest =>
    (((b0 * 256 + b1) * 256 + b2) * 256 + b3) :: bytesToWords rest
  | _ => []

/-- Extend the 16 block words into the 64-word message schedule
(`count` more words to append). -/
def sha256Extend : Nat → List Nat → List Nat
  | 0, w => w
  | k + 1, w =>
    let i := w.length
    sha256Extend k (w ++ [w32 (w.getD (i - 16) 0 + ssig0 (w.getD (i - 15) 0) +
      w.getD (i - 7) 0 + ssig1 (w.getD (i - 2) 0))])

/-- One SHA-256 compression round over an 8-word state; `kw` is `K[t] + W[t]`. -/
def sha256Round (st : List Nat) (kw : Nat) : List Nat :=
  match st with
  | [a, b, c, d, e, f, g, h] =>
    let t1 := w32 (h + bsig1 e + sha256ch e f g + kw)
    let t2 := w32 (bsig0 a + sha256maj a b c)
    [w32 (t1 + t2), a, b, c, w32 (d + t1), e, f, g]
  | _ => st

/-- Compress one 64-byte block into the running state. -/
def sha256Compress (h : List Nat) (block : List Nat) : List Nat :=
  let w := sha256Extend 48 (bytesToWords block)
  let kw := List.zipWith (fun k x => w32 (k + x)) sha256K w
  List.zipWith (fun x y => w32 (x + y)) h (kw.foldl sha256Round h)

/-- Merkle-Damgård padding: append `0x80`, zeros, and the 8-byte big-endian
bit length, to a multiple of 64 bytes. -/
def sha256Pad (msg : List Nat) : List Nat :=
  msg ++ 128 :: (List.replicate ((119 - msg.length % 64) % 64) 0 ++
    natToBE 8 (8 * msg.length))

/-- Fold the compression over 64-byte chunks (fuel-driven; the fuel is the
padded length, an upper bound on the chunk count). -/
def sha256Chunks : Nat → List Nat → List Nat → List Nat
  | 0, h, _ => h
  | fuel + 1, h, l =>
    if l.isEmpty then h
    else sha256Chunks fuel (sha256Compress h (l.take 64)) (l.drop 64)

/-- SHA-256 over a byte list, as computed by the `js-sha256` dependency bound
to the ZNS zone: 32 digest bytes. -/
def sha256 (msg : List Nat) : List Nat :=
  let p := sha256Pad msg
  (sha256Chunks p.length sha256H0 p).flatMap (natToBE 4)

/-- Lowercase hex digit, as JavaScript `x.toString(16)` renders one nibble. -/
def hexDigit : Nat → Char
  | 0 => '0' | 1 => '1' | 2 => '2' | 3 => '3' | 4 => '4' | 5 => '5' | 6 => '6'
  | 7 => '7' | 8 => '8' | 9 => '9' | 10 => 'a' | 11 => 'b' | 12 => 'c'
  | 13 => 'd' | 14 => 'e' | 15 => 'f' | _ => '?'

/-- Value of a hex digit character (0 for anything else, as parsing garbage is
out of scope: inputs are generated hex). -/
def hexDigitVal : Char → Nat
  | '0' => 0 | '1' => 1 | '2' => 2 | '3' => 3 | '4' => 4 | '5' => 5 | '6' => 6
  | '7' => 7 | '8' => 8 | '9' => 9 | 'a' => 10 | 'b' => 11 | 'c' => 12
  | 'd' => 13 | 'e' => 14 | 'f' => 15 | _ => 0

/-- Hex rendering of a byte list, two lowercase digits per byte — the loop of
`arrayToHex` in `src/utils/namehash.ts` (without the `0x`). -/
def hexEncode (bs : List Nat) : List Char :=
  bs.flatMap (fun b => [hexDigit (b / 16), hexDigit (b % 16)])

/-- Byte list of a hex string, two digits per byte (`hexToBytes` in
`src/utils/index.ts`). -/
def hexDecode : List Char → List Nat
  | c1 :: c2 :: rest => (16 * hexDigitVal c1 + hexDigitVal c2) :: hexDecode rest
  | _ => []

/-- Embedding of `arrayToHex(arr)` composed with `hashArray`: `znsNamehash`
from `src/utils/namehash.ts` (and `eip137Namehash` for any digest), producing
the `0x`-prefixed 64-digit hex string. -/
def namehashHex (digest : List Nat → List Nat) (domain : List Char) : List Char :=
  '0' :: 'x' :: hexEncode (hashArray digest domain)

/-- The ZNS namehash: `hashArray` bound to SHA-256, rendered as hex. -/
def znsNamehash (domain : List Char) : List Char := namehashHex sha256 domain

/-- Embedding of `parent.replace(/^0x/, '')`: drop one leading `0x`. -/
def dropLead0x : List Char → List Char
  | '0' :: 'x' :: rest => rest
  | s => s

/-- Embedding of `Zns.childhash(parent, label, options)`: strip the parent's
`0x`, concatenate the hex digest of the label, hash the byte decoding of that
hex string, and render with an optional `0x`. -/
def znsChildhash (parent label : List Char) (pfx : Bool) : List Char :=
  (if pfx then ['0', 'x'] else []) ++
    hexEncode (sha256 (hexDecode (dropLead0x parent ++ hexEncode (sha256 (strBytes label)))))

/-- Childhash at the byte level, the spec's `digest(parentNodeHash ||
digest(label))` (§4.2); `Zns.childhash` reduces to it with `digest = sha256`,
and it models the keccak variant (whose source file is not in the snapshot)
for an arbitrary digest. -/
def childhashBytes (digest : List Nat → List Nat) (parent : List Nat)
    (label : List Char) : List Nat :=
  digest (parent ++ digest (strBytes label))

/-- Decimal digit character. -/
def decDigit : Nat → Char
  | 0 => '0' | 1 => '1' | 2 => '2' | 3 => '3' | 4 => '4' | 5 => '5' | 6 => '6'
  | 7 => '7' | 8 => '8' | 9 => '9' | _ => '?'

/-- Value of a decimal digit character. -/
def decDigitVal : Char → Nat
  | '0' => 0 | '1' => 1 | '2' => 2 | '3' => 3 | '4' => 4 | '5' => 5 | '6' => 6
  | '7' => 7 | '8' => 8 | '9' => 9 | _ => 0

/-- Decimal rendering of a natural number, as `BN.toString(10)` produces it. -/
def decString (n : Nat) : List Char :=
  if n = 0 then ['0'] else ((Nat.digits 10 n).map decDigit).reverse

/-- Parse a decimal string back to a natural number. -/
def decParse (s : List Char) : Nat :=
  Nat.ofDigits 10 ((s.map decDigitVal).reverse)

/-- Big-integer value of a hex string, as `new BN(hex, 'hex')` reads it. -/
def natOfHex (s : List Char) : Nat :=
  s.foldl (fun a c => 16 * a + hexDigitVal c) 0

/-- Big-endian big-integer value of a byte list. -/
def bytesToNat (bs : List Nat) : Nat :=
  bs.foldl (fun a b => 256 * a + b) 0

/-- Embedding of `hash.replace('0x', '')` in `Resolution.formatNamehash`:
remove the first occurrence of `0x`. -/
def replaceFirst0x : List Char → List Char
  | [] => []
  | '0' :: 'x' :: rest => rest
  | c :: rest => c :: replaceFirst0x rest

/-- The two namehash output formats of `NamehashOptions`. -/
inductive HashFormat where
  | hex
  | dec
deriving DecidableEq

/-- Formatting options: format and whether to keep the `0x` in hex mode. -/
structure NamehashOpts where
  fmt : HashFormat
  pfx : Bool

/-- Embedding of `Resolution.formatNamehash` (`src/Resolution.ts`): strip the
first `0x`; in `dec` mode render the hex value in decimal via `BN`; in hex
mode re-attach the prefix if requested. -/
def formatNamehash (hash : List Char) (o : NamehashOpts) : List Char :=
  let h := replaceFirst0x hash
  match o.fmt with
  | .dec => decString (natOfHex h)
  | .hex => if o.pfx then '0' :: 'x' :: h else h

/-- Recover the bytes from the unprefixed hex rendering. -/
def recoverFromHex (s : List Char) : List Nat := hexDecode s

/-- Recover the bytes from the `0x`-prefixed hex rendering. -/
def recoverFromHex0x (s : List Char) : List Nat := hexDecode (s.drop 2)

/-- Recover the 32 bytes from the decimal rendering. -/
def recoverFromDec (s : List Char) : List Nat := natToBE 32 (decParse s)

/-- Embedding of the `ResolutionErrorCode` enumeration (`src/resolutionError.ts`). -/
inductive ResolutionErrorCode where
  | unregisteredDomain
  | unspecifiedResolver
  | unsupportedDomain
  | unspecifiedCurrency
  | namingServiceDown
  | unsupportedCurrency
  | incorrectResolverInterface
  | recordNotFound
deriving DecidableEq

/-- A thrown JavaScript value: a `ResolutionError` carrying its code, or any
other error (the `instanceof ResolutionError` check distinguishes them). -/
inductive JsError where
  | resolution : ResolutionErrorCode → JsError
  | other : JsError
deriving DecidableEq

/-- The test `error instanceof ResolutionError && error.code ===
ResolutionErrorCode.UnregisteredDomain` from `Resolution.callForDomain`. -/
def isUnregisteredError : JsError → Bool
  | .resolution .unregisteredDomain => true
  | _ => false

/-- The two backend families of `serviceMap`. -/
inductive NamingServiceName where
  | uns
  | zns
deriving DecidableEq

/-- Modelled from the spec: the static suffix table of §4.2 / ZoneDescriptor
(`findNamingServiceName` is imported from `./utils` in `Resolution.ts`, a file
absent from the snapshot; the spec routes by "looking up the domain's
rightmost label in a static suffix table"). -/
def suffixTable : List (List Char × NamingServiceName) :=
  [(chars "zil", .zns), (chars "crypto", .uns)]

/-- Rightmost dot-separated label of a domain. -/
def rightmostLabel (d : List Char) : List Char := (splitDot d).getLast?.getD []

/-- Modelled from the spec: `findNamingServiceName` — look the rightmost label
up in the suffix table; an unknown suffix routes nowhere. -/
def findNamingServiceName (d : List Char) : Option NamingServiceName :=
  (suffixTable.find? (fun e => e.1 == rightmostLabel d)).map (fun e => e.2)

/-- The dispatch loop of `Resolution.callForDomain` (`src/Resolution.ts`,
lines 808–827) over the awaited `{result, error}` outcomes of the routed
services, in order: an error that is exactly a `ResolutionError` with code
`UnregisteredDomain` is skipped, any other error is rethrown, a result is
returned; an exhausted list throws `UnregisteredDomain`. -/
def callForDomainLoop {α : Type} : List (Except JsError α) → Except JsError α
  | [] => .error (.resolution .unregisteredDomain)
  | .error e :: rest =>
    if isUnregisteredError e then callForDomainLoop rest else .error e
  | .ok r :: _ => .ok r

/-- Embedding of `Resolution.callForDomain`: route by suffix (throwing
`UnsupportedDomain` when unrouted), then run the dispatch loop over the
backend call outcomes. -/
def callForDomain {α : Type} (domain : List Char)
    (outcomes : List (Except JsError α)) : Except JsError α :=
  match findNamingServiceName domain with
  | none => .error (.resolution .unsupportedDomain)
  | some _ => callForDomainLoop outcomes

/-- The dispatch loop of `Resolution.callForDomainBoolean` (lines 853–870):
like `callForDomainLoop` but a `false` result is also skipped and an
exhausted list resolves to `false`. -/
def callForDomainBooleanLoop : List (Except JsError Bool) → Except JsError Bool
  | [] => .ok false
  | .error e :: rest =>
    if isUnregisteredError e then callForDomainBooleanLoop rest else .error e
  | .ok b :: rest => if b then .ok true else callForDomainBooleanLoop rest

/-- Embedding of `Resolution.callForDomainBoolean`: an unrouted domain yields
`false` when `throwIfUnsupportedDomain` is off, else `UnsupportedDomain`. -/
def callForDomainBoolean (domain : List Char)
    (outcomes : List (Except JsError Bool))
    (throwIfUnsupportedDomain : Bool) : Except JsError Bool :=
  match findNamingServiceName domain with
  | none =>
    if throwIfUnsupportedDomain then .error (.resolution .unsupportedDomain)
    else .ok false
  | some _ => callForDomainBooleanLoop outcomes

/-- `Resolution.isRegistered`: boolean dispatch, throwing on unrouted domains. -/
def isRegisteredCall (domain : List Char)
    (outcomes : List (Except JsError Bool)) : Except JsError Bool :=
  callForDomainBoolean domain outcomes true

/-- `Resolution.isAvailable`: boolean dispatch, throwing on unrouted domains. -/
def isAvailableCall (domain : List Char)
    (outcomes : List (Except JsError Bool)) : Except JsError Bool :=
  callForDomainBoolean domain outcomes true

/-- `Resolution.isSupportedDomain`: boolean dispatch, configured to yield
`false` instead of throwing on unrouted domains. -/
def isSupportedDomainCall (domain : List Char)
    (outcomes : List (Except JsError Bool)) : Except JsError Bool :=
  callForDomainBoolean domain outcomes false

/-- A JavaScript record value: a string, or an object as an ordered list of
string-keyed fields (JS object keys are unique; insertion order preserved). -/
inductive JVal where
  | str : List Char → JVal
  | obj : List (List Char × JVal) → JVal

/-- JavaScript object property read: value of the first binding of `k`. -/
def objGet {α : Type} (o : List (List Char × α)) (k : List Char) : Option α :=
  (o.find? (fun e => e.1 == k)).map (fun e => e.2)

/-- JavaScript object property write: update an existing binding in place,
else append a new one. -/
def objSet {α : Type} (o : List (List Char × α)) (k : List Char) (v : α) :
    List (List Char × α) :=
  match o with
  | [] => [(k, v)]
  | (k0, v0) :: rest => if k0 = k then (k, v) :: rest else (k0, v0) :: objSet rest k v

/-- JavaScript truthiness of a record value: a non-empty string or any object. -/
def truthy : JVal → Bool
  | .str s => !s.isEmpty
  | .obj _ => true

/-- One step of the walk in `set` (`src/utils/index.ts`): `current[token] =
typeof current[token] == 'object' ? current[token] : {}` — reuse the level
only when it already holds an object, else start from `{}`. -/
def setChild (o : List (List Char × JVal)) (t : List Char) :
    List (List Char × JVal) :=
  match objGet o t with
  | some (.obj m) => m
  | _ => []

/-- The token walk of `set` (`src/utils/index.ts`): walk the non-leaf tokens
through `setChild`, and assign the value at the leaf. -/
def setPath (o : List (List Char × JVal)) :
    List (List Char) → List Char → JVal → List (List Char × JVal)
  | [], leaf, v => objSet o leaf v
  | t :: rest, leaf, v => objSet o t (.obj (setPath (setChild o t) rest leaf v))

/-- Embedding of `set(object, key, value)` from `src/utils/index.ts`: split the
key on dots, pop the leaf, walk the rest. -/
def jsSet (o : List (List Char × JVal)) (key : List Char) (v : JVal) :
    List (List Char × JVal) :=
  setPath o (splitDot key).dropLast ((splitDot key).getLast?.getD []) v

/-- Embedding of `Zns.structureResolverRecords`: fold `set` over the flat
record entries (in object insertion order). -/
def structureRecords (records : List (List Char × List Char)) :
    List (List Char × JVal) :=
  records.foldl (fun acc kv => jsSet acc kv.1 (.str kv.2)) []

/-- Read a value through a dotted path in a record tree. -/
def valLookup : JVal → List (List Char) → Option JVal
  | v, [] => some v
  | .str _, _ :: _ => none
  | .obj m, t :: rest =>
    match objGet m t with
    | some w => valLookup w rest
    | none => none

/-- Boolean path-prefix test on token paths. -/
def pathLe : List (List Char) → List (List Char) → Bool
  | [], _ => true
  | _ :: _, [] => false
  | a :: as, b :: bs => a == b && pathLe as bs

/-- No binding chain in the tree follows the (non-empty) path to an existing
value — every binding of the head token (objects have unique keys, but the
predicate quantifies over all bindings and needs no such invariant) avoids
the tail. -/
def avoids : JVal → List (List Char) → Prop
  | _, [] => False
  | .str _, _ :: _ => True
  | .obj m, t :: rest => ∀ kv ∈ m, kv.1 = t → avoids kv.2 rest

/-- The body of the `forEach` building `addresses` in `Zns.resolve`: take
`v.address` when truthy (a string has no `address` property; `Object.entries`
of a string enumerates characters, which have none either, so a string
contributes nothing). -/
def addrStep (acc : List (List Char × JVal)) (kv : List Char × JVal) :
    List (List Char × JVal) :=
  match kv.2 with
  | .obj vm =>
    match objGet vm (chars "address") with
    | some a => if truthy a then objSet acc kv.1 a else acc
    | none => acc
  | .str _ => acc

/-- The `addresses` map built by `Zns.resolve` from the structured records:
the `crypto` subtree's entries with a truthy `address` leaf (a falsy or absent
`crypto`, or a string `crypto`, contributes nothing). -/
def extractAddresses (res : List (List Char × JVal)) : List (List Char × JVal) :=
  match objGet res (chars "crypto") with
  | some (.obj m) => m.foldl addrStep []
  | _ => []

/-- Modelled from the spec: the `NullAddresses` table (its `types` module is
absent from the snapshot); `src/zns.ts` shows the all-zero hex address as the
null marker. -/
def nullAddressValues : List (List Char) :=
  [chars "0x0000000000000000000000000000000000000000"]

/-- Embedding of `isNullAddress` (`src/utils/index.ts`): missing/empty keys
and the null-address constants count as null. -/
def isNullAddress : Option (List Char) → Bool
  | none => true
  | some s => s.isEmpty || nullAddressValues.contains s

/-- Embedding of `Zns.isSupportedDomain`: non-empty token list, last token
`zil`, and no empty labels. -/
def znsIsSupportedDomain (d : List Char) : Bool :=
  let tokens := splitDot d
  !tokens.isEmpty && (tokens.getLast?.getD []) == chars "zil" &&
    tokens.all (fun t => !t.isEmpty)

/-- State and external collaborators of the ZNS backend: the registry
substate (keyed by the namehash hex string, yielding the record's
`(ownerAddress, resolverAddress)` arguments), the resolver record substates
(keyed by checksummed resolver address), and the address re-encoders from
`@zilliqa-js/crypto`. -/
structure ZnsBackend where
  registryAddress : Option (List Char)
  registry : List Char → Option (List Char × List Char)
  resolverRecords : List Char → List (List Char × List Char)
  toBech32 : List Char → List Char
  toChecksum : List Char → List Char

/-- Embedding of `Zns.getRecordsAddresses`: `undefined` unless the domain and
network are supported and the registry holds a record for `namehash(domain)`;
a `0x` owner address is re-encoded to bech32. -/
def znsGetRecordsAddresses (b : ZnsBackend) (d : List Char) :
    Option (List Char × List Char) :=
  if znsIsSupportedDomain d && b.registryAddress.isSome then
    match b.registry (znsNamehash d) with
    | none => none
    | some (ow, rs) =>
      some (if ow.take 2 = chars "0x" then b.toBech32 ow else ow, rs)
  else none

/-- Embedding of `Zns.getResolverRecords`: `{}` for a null resolver address,
else the resolver contract's flat `records` substate. -/
def znsGetResolverRecords (b : ZnsBackend) (rs : List Char) :
    List (List Char × List Char) :=
  if isNullAddress (some rs) then [] else b.resolverRecords (b.toChecksum rs)

/-- Leading decimal digits of a string. -/
def leadingDigits : List Char → List Char
  | [] => []
  | c :: cs => if c.isDigit then c :: leadingDigits cs else []

/-- Simplified `parseInt(x) || 0`: value of the leading digits, 0 when there
are none (sign, whitespace and radix prefixes do not occur in `ttl` records). -/
def parseIntD (s : List Char) : Nat := decParse (leadingDigits s)

/-- Result of `Zns.resolve`: the `addresses` map, `meta.owner` and `meta.ttl`
(`meta.type` is the constant service name and `records` the raw structure;
neither bears on any claim). -/
structure ResolutionResponse where
  addresses : List (List Char × JVal)
  owner : Option (List Char)
  ttl : Nat

/-- Embedding of `Zns.resolve` (`src/index.test.ts` Zns copy, lines 60–82).
`UnclaimedDomainResponse` is defined in the absent `types` module; per the
spec an unregistered domain must read as owner-less, and both its possible
renderings (a `null` response or a response with `owner: null`) are
observationally equal for `address` and `owner`, so the `null` reading is
used. -/
def znsResolve (b : ZnsBackend) (d : List Char) : Option ResolutionResponse :=
  match znsGetRecordsAddresses b d with
  | none => none
  | some (ow, rs) =>
    some
      { addresses := extractAddresses (structureRecords (znsGetResolverRecords b rs))
        owner := if ow.isEmpty then none else some ow
        ttl :=
          match valLookup (.obj (structureRecords (znsGetResolverRecords b rs)))
            [chars "ttl"] with
          | some (.str s) => parseIntD s
          | _ => 0 }

/-- Embedding of `Zns.address` (lines 84–99): a null/absent owner throws
`UnregisteredDomain`; a falsy `addresses[ticker.toUpperCase()]` throws
`UnspecifiedCurrency`; else the stored value is returned. The final branch is
unreachable (a `none` response was already caught by `isNullAddress`): the
bang-dereference `data!` is embedded as the error it would raise. -/
def znsAddress (b : ZnsBackend) (d ticker : List Char) : Except JsError JVal :=
  if isNullAddress ((znsResolve b d).bind (fun r => r.owner)) then
    .error (.resolution .unregisteredDomain)
  else
    match znsResolve b d with
    | some r =>
      match objGet r.addresses (ticker.map Char.toUpper) with
      | some a =>
        if truthy a then .ok a else .error (.resolution .unspecifiedCurrency)
      | none => .error (.resolution .unspecifiedCurrency)
    | none => .error .other

/-- Embedding of `Zns.owner` (lines 101–104): `data ? data.meta.owner : null`,
never a throw. -/
def znsOwner (b : ZnsBackend) (d : List Char) : Option (List Char) :=
  match znsResolve b d with
  | some r => r.owner
  | none => none

/-- Embedding of `Resolution.allNonEmptyRecords` (`src/Resolution.ts`, lines
642–651): rebuild the record object keeping only entries with truthy values.
The entries of `allRecords`' result are taken as input (`Object.entries` of a
JS object: unique keys, insertion order). -/
def allNonEmptyRecords (records : List (List Char × List Char)) :
    List (List Char × List Char) :=
  records.foldl (fun acc kv => if kv.2.isEmpty then acc else objSet acc kv.1 kv.2) []

/-- Bytes emitted by `natToBE` are bytes. -/
theorem natToBE_mem_lt (k n : Nat) : ∀ b ∈ natToBE k n, b < 256 := by
  induction k generalizing n with
  | zero => intro b hb; simp [natToBE] at hb
  | succ k ih =>
    intro b hb
    rw [natToBE] at hb
    rcases List.mem_append.mp hb with hb1 | hb1
    · exact ih (n / 256) b hb1
    · rw [List.mem_singleton.mp hb1]
      exact Nat.mod_lt _ (by omega)

/-- SHA-256 digests are byte lists. -/
theorem sha256_mem_lt (m : List Nat) : ∀ b ∈ sha256 m, b < 256 := by
  intro b hb
  rw [sha256] at hb
  rcases List.mem_flatMap.mp hb with ⟨w, _, hw⟩
  exact natToBE_mem_lt 4 w b hw

/-- Namehash digests computed with SHA-256 are byte lists. -/
theorem hashArray_sha256_mem_lt (d : List Char) :
    ∀ b ∈ hashArray sha256 d, b < 256 := by
  by_cases hd : d = []
  · subst hd
    rw [hashArray_nil]
    intro b hb
    rw [List.eq_of_mem_replicate hb]
    omega
  · rcases hs : splitDot d with _ | ⟨label, remainder⟩
    · exact absurd hs (splitDot_ne_nil d)
    · rw [hashArray_cons sha256 d hd label remainder hs]
      exact sha256_mem_lt _

/-- Hex digit round trip. -/
theorem hexDigit_round : ∀ d < 16, hexDigitVal (hexDigit d) = d := by decide

/-- Decoding an encoded byte list peels it off exactly. -/
theorem hexDecode_encode_append (a : List Nat) (t : List Char)
    (h : ∀ b ∈ a, b < 256) : hexDecode (hexEncode a ++ t) = a ++ hexDecode t := by
  induction a with
  | nil => rfl
  | cons b bs ih =>
    have hb : b < 256 := h b (by simp)
    have hbs : ∀ x ∈ bs, x < 256 := fun x hx => h x (List.mem_cons_of_mem b hx)
    show hexDecode (hexDigit (b / 16) :: hexDigit (b % 16) :: (hexEncode bs ++ t)) = _
    rw [hexDecode, ih hbs,
      hexDigit_round (b / 16) (by omega), hexDigit_round (b % 16) (by omega)]
    have : 16 * (b / 16) + b % 16 = b := by omega
    rw [this]
    rfl

/-- Hex decode inverts hex encode on byte lists. -/
theorem hexDecode_hexEncode (a : List Nat) (h : ∀ b ∈ a, b < 256) :
    hexDecode (hexEncode a) = a := by
  have h2 := hexDecode_encode_append a [] h
  rw [List.append_nil, show hexDecode [] = [] from rfl, List.append_nil] at h2
  exact h2

set_option maxRecDepth 40000

/-- The ZNS namehash of `zil` equals the value fixed by the repository's own
test suite (`0x9915d045…8ed3`), validating the SHA-256 embedding against the
`js-sha256` the code runs. -/
theorem znsNamehash_zil_vector :
    hashArray sha256 (chars "zil") =
      [0x99, 0x15, 0xd0, 0x45, 0x6b, 0x87, 0x88, 0x62, 0xe8, 0x22, 0xe2, 0x36,
       0x1d, 0xa3, 0x72, 0x32, 0xf6, 0x26, 0xa2, 0xe4, 0x75, 0x05, 0xc8, 0x79,
       0x51, 0x34, 0xa9, 0x5d, 0x36, 0x13, 0x8e, 0xd3] := by
  rw [hashArray_cons sha256 (chars "zil") (by decide) (chars "zil") []
    (by rw [show chars "zil" = ['z', 'i', 'l'] from rfl]; rfl)]
  rw [show joinDot [] = [] from rfl, hashArray_nil]
  decide

/-- C1 (amended): for every digest — covering both the Keccak-256 and the
SHA-256 binding — and every domain string that does not end in a dot,
`hashArray` equals the spec's recursive definition on the label list (empty
domain to 32 zero bytes, `hash([label, ...rest]) = digest(hash(rest) ++
digest(label))`). On a domain with a trailing dot the code collapses the empty
remainder to the zero hash instead of recursing through the empty label — see
the counterexample. -/
theorem namehash_matches_spec_recursion (digest : List Nat → List Nat)
    (d : List Char) (h : d.getLast? ≠ some '.') :
    hashArray digest d = specNamehash digest d := by
  by_cases hd : d = []
  · subst hd
    rw [hashArray_nil]
    rfl
  · rw [specNamehash, if_neg hd]
    have hlast : (splitDot d).getLast? ≠ some [] := by
      intro hc
      rcases splitDot_getLast?_nil d hc with h1 | h1
      · exact hd h1
      · exact h h1
    have h2 := hashArray_joinDot digest (splitDot d) (splitDot_ne_nil d)
      (splitDot_no_dot d) hlast
    rwa [joinDot_splitDot d] at h2

/-- C1 witness: `brad.zil` does not end in a dot, and its SHA-256 namehash
matches the spec recursion. -/
theorem namehash_matches_spec_recursion_witness :
    (chars "brad.zil").getLast? ≠ some '.' ∧
      hashArray sha256 (chars "brad.zil") = specNamehash sha256 (chars "brad.zil") :=
  ⟨by decide, namehash_matches_spec_recursion sha256 (chars "brad.zil") (by decide)⟩

/-- C1 counterexample: on the domain `a.` (labels `["a", ""]`) the code
returns `sha256(zeros ++ sha256("a"))`, but the spec recursion returns
`sha256(sha256(zeros ++ sha256("")) ++ sha256("a"))`: the two 32-byte values
differ. -/
theorem namehash_spec_recursion_cex :
    hashArray sha256 ['a', '.'] ≠ specNamehash sha256 ['a', '.'] := by
  rw [hashArray_cons sha256 ['a', '.'] (by simp) ['a'] [[]] (by rfl)]
  rw [show joinDot [[]] = [] from rfl, hashArray_nil]
  decide

/-- C2: for any digest (covering Keccak-256 and SHA-256), any parent domain
and any (dot-free) label, `childhash(namehash(parent), label)` equals
`namehash(label + "." + parent)`; a non-empty top-level label satisfies
`childhash(zeros, label) = namehash(label)`; and the ZNS hex-level
`Zns.childhash` composed with `znsNamehash` agrees. -/
theorem childhash_namehash_compose (digest : List Nat → List Nat)
    (parent label : List Char) (hl : '.' ∉ label) :
    childhashBytes digest (hashArray digest parent) label =
        hashArray digest (label ++ '.' :: parent) ∧
      (label ≠ [] →
        childhashBytes digest (List.replicate 32 0) label =
          hashArray digest label) ∧
      znsChildhash (znsNamehash parent) label true =
        znsNamehash (label ++ '.' :: parent) := by
  have part1 : ∀ dg : List Nat → List Nat,
      childhashBytes dg (hashArray dg parent) label =
        hashArray dg (label ++ '.' :: parent) := by
    intro dg
    rw [childhashBytes,
      hashArray_cons dg (label ++ '.' :: parent) (by simp) label (splitDot parent)
        (splitDot_append_dot label parent hl),
      joinDot_splitDot]
  refine ⟨part1 digest, ?_, ?_⟩
  · intro hne
    rw [childhashBytes,
      hashArray_cons digest label hne label [] (splitDot_dotfree label hl),
      show joinDot [] = [] from rfl, hashArray_nil]
  · rw [znsChildhash, znsNamehash, namehashHex,
      show dropLead0x ('0' :: 'x' :: hexEncode (hashArray sha256 parent)) =
        hexEncode (hashArray sha256 parent) from rfl,
      hexDecode_encode_append (hashArray sha256 parent) _ (hashArray_sha256_mem_lt parent),
      hexDecode_hexEncode _ (sha256_mem_lt _)]
    rw [show sha256 (hashArray sha256 parent ++ sha256 (strBytes label)) =
        childhashBytes sha256 (hashArray sha256 parent) label from rfl,
      part1 sha256]
    rfl

/-- C2 witness: the dot-free label `hello` over parent `world.zil` (and as a
top-level label) satisfies all three childhash identities. -/
theorem childhash_namehash_compose_witness :
    '.' ∉ chars "hello" ∧ chars "hello" ≠ [] ∧
      (childhashBytes sha256 (hashArray sha256 (chars "world.zil")) (chars "hello") =
        hashArray sha256 (chars "hello" ++ '.' :: chars "world.zil") ∧
      childhashBytes sha256 (List.replicate 32 0) (chars "hello") =
        hashArray sha256 (chars "hello") ∧
      znsChildhash (znsNamehash (chars "world.zil")) (chars "hello") true =
        znsNamehash (chars "hello" ++ '.' :: chars "world.zil")) := by
  have h := childhash_namehash_compose sha256 (chars "world.zil") (chars "hello")
    (by decide)
  exact ⟨by decide, by decide, h.1, h.2.1 (by decide), h.2.2⟩

/-- Decimal digit round trip. -/
theorem decDigit_round : ∀ d < 10, decDigitVal (decDigit d) = d := by decide

/-- Parsing a decimal rendering recovers the number. -/
theorem decParse_decString (n : Nat) : decParse (decString n) = n := by
  by_cases h : n = 0
  · subst h
    rfl
  · rw [decString, if_neg h, decParse, List.map_reverse, List.reverse_reverse,
      List.map_map]
    have hmap : ∀ l : List Nat, (∀ d ∈ l, d < 10) →
        l.map (decDigitVal ∘ decDigit) = l := by
      intro l
      induction l with
      | nil => intro _; rfl
      | cons d ds ih =>
        intro hl
        simp only [List.map_cons, Function.comp_apply]
        rw [ih (fun x hx => hl x (List.mem_cons_of_mem d hx)),
          decDigit_round d (hl d (by simp))]
    rw [hmap (Nat.digits 10 n)
      (fun d hd => Nat.digits_lt_base (by omega) hd), Nat.ofDigits_digits]

/-- Folding the hex digits of an encoded byte list accumulates its big-endian
value. -/
theorem natOfHex_encode_aux (bs : List Nat) (h : ∀ b ∈ bs, b < 256) :
    ∀ a : Nat, (hexEncode bs).foldl (fun x c => 16 * x + hexDigitVal c) a =
      bs.foldl (fun x b => 256 * x + b) a := by
  induction bs with
  | nil => intro a; rfl
  | cons b rest ih =>
    intro a
    have hb : b < 256 := h b (by simp)
    have hrest : ∀ x ∈ rest, x < 256 := fun x hx => h x (List.mem_cons_of_mem b hx)
    show (hexDigit (b / 16) :: hexDigit (b % 16) :: hexEncode rest).foldl _ a = _
    rw [List.foldl_cons, List.foldl_cons, ih hrest,
      hexDigit_round (b / 16) (by omega), hexDigit_round (b % 16) (by omega)]
    have : 16 * (16 * a + b / 16) + b % 16 = 256 * a + b := by omega
    rw [this]
    rfl

/-- `BN(hexEncode bs, 'hex')` reads the big-endian byte value. -/
theorem natOfHex_hexEncode (bs : List Nat) (h : ∀ b ∈ bs, b < 256) :
    natOfHex (hexEncode bs) = bytesToNat bs :=
  natOfHex_encode_aux bs h 0

/-- Appending one byte to a big-endian value. -/
theorem bytesToNat_append (bs : List Nat) (b : Nat) :
    bytesToNat (bs ++ [b]) = 256 * bytesToNat bs + b := by
  rw [bytesToNat, List.foldl_append]
  rfl

/-- Re-serialising the big-endian value of a byte list at its own width
recovers the bytes. -/
theorem natToBE_bytesToNat (bs : List Nat) (h : ∀ b ∈ bs, b < 256) :
    natToBE bs.length (bytesToNat bs) = bs := by
  induction bs using List.reverseRecOn with
  | nil => rfl
  | append_singleton bs b ih =>
    have hb : b < 256 := h b (by simp)
    have hbs : ∀ x ∈ bs, x < 256 := fun x hx => h x (by simp [hx])
    rw [bytesToNat_append, List.length_append, List.length_singleton, natToBE]
    have hdiv : (256 * bytesToNat bs + b) / 256 = bytesToNat bs := by omega
    have hmod : (256 * bytesToNat bs + b) % 256 = b := by omega
    rw [hdiv, hmod, ih hbs]

/-- The formatter strips exactly the leading `0x` of a namehash rendering. -/
theorem replaceFirst0x_prefixed (l : List Char) :
    replaceFirst0x ('0' :: 'x' :: l) = l := rfl

/-- C5: the three renderings of a 32-byte namehash — hex without `0x`, hex
with `0x`, and the decimal reading of the hex value — are each lossless: an
explicit decoder recovers the underlying 32 bytes exactly from the output of
`formatNamehash` on the `0x`-prefixed hex string the hashing code produces. -/
theorem formatNamehash_lossless (bs : List Nat) (hlen : bs.length = 32)
    (hlt : ∀ b ∈ bs, b < 256) :
    recoverFromHex (formatNamehash ('0' :: 'x' :: hexEncode bs) ⟨.hex, false⟩) = bs ∧
      recoverFromHex0x (formatNamehash ('0' :: 'x' :: hexEncode bs) ⟨.hex, true⟩) = bs ∧
      recoverFromDec (formatNamehash ('0' :: 'x' :: hexEncode bs) ⟨.dec, true⟩) = bs := by
  refine ⟨?_, ?_, ?_⟩
  · show hexDecode (replaceFirst0x ('0' :: 'x' :: hexEncode bs)) = bs
    rw [replaceFirst0x_prefixed, hexDecode_hexEncode bs hlt]
  · show hexDecode (('0' :: 'x' :: replaceFirst0x ('0' :: 'x' :: hexEncode bs)).drop 2) = bs
    rw [replaceFirst0x_prefixed]
    show hexDecode (hexEncode bs) = bs
    exact hexDecode_hexEncode bs hlt
  · show natToBE 32 (decParse (decString (natOfHex (replaceFirst0x ('0' :: 'x' :: hexEncode bs))))) = bs
    rw [replaceFirst0x_prefixed, decParse_decString,
      natOfHex_hexEncode bs hlt, ← hlen, natToBE_bytesToNat bs hlt]

/-- C5 witness: the SHA-256 namehash bytes of `zil` (32 bytes, all < 256)
are recovered from all three renderings. -/
theorem formatNamehash_lossless_witness :
    (hashArray sha256 (chars "zil")).length = 32 ∧
      recoverFromDec (formatNamehash
        ('0' :: 'x' :: hexEncode (hashArray sha256 (chars "zil"))) ⟨.dec, true⟩) =
        hashArray sha256 (chars "zil") := by
  have h32 : (hashArray sha256 (chars "zil")).length = 32 := by
    rw [znsNamehash_zil_vector]
    rfl
  exact ⟨h32,
    (formatNamehash_lossless (hashArray sha256 (chars "zil")) h32
      (hashArray_sha256_mem_lt (chars "zil"))).2.2⟩

/-- A run of `UnregisteredDomain` failures is skipped by the dispatch loop. -/
theorem callForDomainLoop_skip_unreg {α : Type} (pre : List (Except JsError α))
    (hall : ∀ o ∈ pre, ∃ e0, o = .error e0 ∧ isUnregisteredError e0 = true) :
    ∀ t : List (Except JsError α),
      callForDomainLoop (pre ++ t) = callForDomainLoop t := by
  induction pre with
  | nil => intro t; rfl
  | cons o pre ih =>
    intro t
    obtain ⟨e0, ho, he0⟩ := hall o (by simp)
    subst ho
    rw [List.cons_append, callForDomainLoop, if_pos he0]
    exact ih (fun x hx => hall x (List.mem_cons_of_mem _ hx)) t

/-- A run of skippable boolean outcomes (`false` results and
`UnregisteredDomain` failures) is skipped by the boolean dispatch loop. -/
theorem callForDomainBooleanLoop_skip (pre : List (Except JsError Bool))
    (hall : ∀ o ∈ pre, o = .ok false ∨
      ∃ e0, o = .error e0 ∧ isUnregisteredError e0 = true) :
    ∀ t : List (Except JsError Bool),
      callForDomainBooleanLoop (pre ++ t) = callForDomainBooleanLoop t := by
  induction pre with
  | nil => intro t; rfl
  | cons o pre ih =>
    intro t
    have htail : ∀ x ∈ pre, x = .ok false ∨
        ∃ e0, x = .error e0 ∧ isUnregisteredError e0 = true :=
      fun x hx => hall x (List.mem_cons_of_mem _ hx)
    rcases hall o (by simp) with ho | ⟨e0, ho, he0⟩
    · subst ho
      rw [List.cons_append, callForDomainBooleanLoop, if_neg (by simp)]
      exact ih htail t
    · subst ho
      rw [List.cons_append, callForDomainBooleanLoop, if_pos he0]
      exact ih htail t

/-- C3: in the dispatch loop of `callForDomain`, a backend outcome failing
with exactly the `UnregisteredDomain` code is skipped and dispatch continues;
an outcome failing with any other error is returned as the final error
whatever outcomes follow (no later backend outcome is consulted), provided
the earlier outcomes were all `UnregisteredDomain` failures; and a list of
outcomes that all fail with `UnregisteredDomain` produces an
`UnregisteredDomain` error. -/
theorem callForDomain_fallback (α : Type) (e1 e2 : JsError)
    (pre rest : List (Except JsError α)) :
    (isUnregisteredError e1 = true →
      callForDomainLoop (.error e1 :: rest) = callForDomainLoop rest) ∧
    ((∀ o ∈ pre, ∃ e0, o = .error e0 ∧ isUnregisteredError e0 = true) →
      isUnregisteredError e2 = false →
      callForDomainLoop (pre ++ .error e2 :: rest) = .error e2) ∧
    ((∀ o ∈ pre, ∃ e0, o = .error e0 ∧ isUnregisteredError e0 = true) →
      callForDomainLoop pre = .error (.resolution .unregisteredDomain)) := by
  refine ⟨?_, ?_, ?_⟩
  · intro h
    rw [callForDomainLoop, if_pos h]
  · intro hall hne
    rw [callForDomainLoop_skip_unreg pre hall, callForDomainLoop, if_neg (by simp [hne])]
  · intro hall
    have h2 := callForDomainLoop_skip_unreg pre hall []
    rw [List.append_nil] at h2
    rw [h2]
    rfl

/-- C3 witness: with one `UnregisteredDomain` failure ahead, a
`NamingServiceDown` failure is returned over a later success, and exhausting
only `UnregisteredDomain` failures yields `UnregisteredDomain`. -/
theorem callForDomain_fallback_witness :
    callForDomainLoop
        (.error (.resolution .unregisteredDomain) :: [.ok 7]) =
      callForDomainLoop [.ok (7 : Nat)] ∧
    callForDomainLoop
        ([.error (.resolution .unregisteredDomain)] ++
          .error (.resolution .namingServiceDown) :: [.ok 7]) =
      .error (.resolution .namingServiceDown) ∧
    callForDomainLoop (α := Nat)
        [.error (.resolution .unregisteredDomain),
         .error (.resolution .unregisteredDomain)] =
      .error (.resolution .unregisteredDomain) := by
  have h := callForDomain_fallback Nat (.resolution .unregisteredDomain)
    (.resolution .namingServiceDown)
    [.error (.resolution .unregisteredDomain)] [.ok 7]
  have h3 := (callForDomain_fallback Nat (.resolution .unregisteredDomain)
    (.resolution .namingServiceDown)
    [.error (.resolution .unregisteredDomain),
     .error (.resolution .unregisteredDomain)] []).2.2
  refine ⟨h.1 (by decide), h.2.1 ?_ (by decide), h3 ?_⟩
  · intro o ho
    rw [List.mem_singleton.mp ho]
    exact ⟨.resolution .unregisteredDomain, rfl, rfl⟩
  · intro o ho
    rcases List.mem_cons.mp ho with h1 | h1
    · rw [h1]; exact ⟨.resolution .unregisteredDomain, rfl, rfl⟩
    · rw [List.mem_singleton.mp h1]
      exact ⟨.resolution .unregisteredDomain, rfl, rfl⟩

/-- C4: a resolution call on a domain whose rightmost label is absent from
the static suffix table fails with `UnsupportedDomain`, whatever the backend
outcomes. -/
theorem unrouted_domain_unsupported (α : Type) (d : List Char)
    (outcomes : List (Except JsError α))
    (h : ∀ e ∈ suffixTable, e.1 ≠ rightmostLabel d) :
    callForDomain d outcomes = .error (.resolution .unsupportedDomain) := by
  have hf : suffixTable.find? (fun e => e.1 == rightmostLabel d) = none := by
    rw [List.find?_eq_none]
    intro x hx
    simpa using h x hx
  have hn : findNamingServiceName d = none := by
    rw [findNamingServiceName, hf]
    rfl
  simp only [callForDomain, hn]

/-- C4 witness: `brad.nosuch` is not routed, so any dispatch on it fails with
`UnsupportedDomain`. -/
theorem unrouted_domain_unsupported_witness :
    callForDomain (chars "brad.nosuch") [.ok (1 : Nat)] =
      .error (.resolution .unsupportedDomain) :=
  unrouted_domain_unsupported Nat (chars "brad.nosuch") [.ok 1] (by decide)

/-- C9: the boolean operations `isRegistered`, `isAvailable` and
`isSupportedDomain` all dispatch through `callForDomainBoolean` (the first
two throwing on unrouted domains, the last configured not to); the boolean
loop skips `UnregisteredDomain` failures and `false` results and returns at
the first `true` whatever outcomes follow; any other error propagates
immediately; and an unrouted domain yields `false` (not an error) for the
operation configured to not throw. -/
theorem boolean_dispatch_first_true (d : List Char) (e1 e2 : JsError)
    (pre rest outcomes : List (Except JsError Bool)) :
    (isRegisteredCall d outcomes = callForDomainBoolean d outcomes true ∧
      isAvailableCall d outcomes = callForDomainBoolean d outcomes true ∧
      isSupportedDomainCall d outcomes = callForDomainBoolean d outcomes false) ∧
    ((∀ o ∈ pre, o = .ok false ∨
        ∃ e0, o = .error e0 ∧ isUnregisteredError e0 = true) →
      callForDomainBooleanLoop (pre ++ .ok true :: rest) = .ok true) ∧
    (isUnregisteredError e1 = true →
      callForDomainBooleanLoop (.error e1 :: rest) = callForDomainBooleanLoop rest) ∧
    (isUnregisteredError e2 = false →
      callForDomainBooleanLoop (.error e2 :: rest) = .error e2) ∧
    (findNamingServiceName d = none →
      isSupportedDomainCall d outcomes = .ok false) := by
  refine ⟨⟨rfl, rfl, rfl⟩, ?_, ?_, ?_, ?_⟩
  · intro hall
    rw [callForDomainBooleanLoop_skip pre hall]
    rfl
  · intro h
    rw [callForDomainBooleanLoop, if_pos h]
  · intro h
    rw [callForDomainBooleanLoop, if_neg (by simp [h])]
  · intro hn
    simp only [isSupportedDomainCall, callForDomainBoolean, hn]
    rfl

/-- C9 witness: past a `false` result and an `UnregisteredDomain` failure the
first `true` wins; a `NamingServiceDown` failure propagates; and the unrouted
domain `x.nosuch` yields `false` from `isSupportedDomain`. -/
theorem boolean_dispatch_first_true_witness :
    callForDomainBooleanLoop
        ([.ok false, .error (.resolution .unregisteredDomain)] ++
          .ok true :: [.error .other]) = .ok true ∧
    callForDomainBooleanLoop
        (.error (.resolution .namingServiceDown) :: [.ok true]) =
      .error (.resolution .namingServiceDown) ∧
    isSupportedDomainCall (chars "x.nosuch") [.ok true] = .ok false := by
  have h := boolean_dispatch_first_true (chars "x.nosuch")
    (.resolution .unregisteredDomain) (.resolution .namingServiceDown)
    [.ok false, .error (.resolution .unregisteredDomain)] [.error .other]
    [.ok true]
  refine ⟨h.2.1 ?_, ?_, h.2.2.2.2 (by decide)⟩
  · intro o ho
    rcases List.mem_cons.mp ho with h1 | h1
    · exact Or.inl h1
    · rw [List.mem_singleton.mp h1]
      exact Or.inr ⟨.resolution .unregisteredDomain, rfl, rfl⟩
  · exact (boolean_dispatch_first_true (chars "x.nosuch")
      (.resolution .unregisteredDomain) (.resolution .namingServiceDown)
      [] [.ok true] [.ok true]).2.2.2.1 (by decide)

/-- A binding of the updated object is the new binding or an old one. -/
theorem objSet_mem {α : Type} (o : List (List Char × α)) (key : List Char)
    (v : α) (k : List Char) (w : α) (h : (k, w) ∈ objSet o key v) :
    (k = key ∧ w = v) ∨ (k, w) ∈ o := by
  induction o with
  | nil =>
    rw [objSet, List.mem_singleton] at h
    exact Or.inl ⟨congrArg Prod.fst h, congrArg Prod.snd h⟩
  | cons e rest ih =>
    rw [objSet] at h
    by_cases he : e.1 = key
    · rw [if_pos he] at h
      rcases List.mem_cons.mp h with h1 | h1
      · exact Or.inl ⟨congrArg Prod.fst h1, congrArg Prod.snd h1⟩
      · exact Or.inr (List.mem_cons_of_mem e h1)
    · rw [if_neg he] at h
      rcases List.mem_cons.mp h with h1 | h1
      · exact Or.inr (h1 ▸ List.mem_cons_self e rest)
      · rcases ih h1 with h2 | h2
        · exact Or.inl h2
        · exact Or.inr (List.mem_cons_of_mem e h2)

/-- Reading the head binding. -/
theorem objGet_cons_self {α : Type} (k : List Char) (v : α)
    (rest : List (List Char × α)) : objGet ((k, v) :: rest) k = some v := by
  simp [objGet, List.find?_cons]

/-- Reading past a head binding with a different key. -/
theorem objGet_cons_ne {α : Type} (e : List Char × α)
    (rest : List (List Char × α)) (k : List Char) (h : e.1 ≠ k) :
    objGet (e :: rest) k = objGet rest k := by
  have hp : (e.1 == k) = false := by simp [h]
  simp only [objGet, List.find?_cons, hp]

/-- Reading the key just written. -/
theorem objGet_objSet_self {α : Type} (o : List (List Char × α))
    (key : List Char) (v : α) : objGet (objSet o key v) key = some v := by
  induction o with
  | nil => exact objGet_cons_self key v []
  | cons e rest ih =>
    rw [objSet]
    by_cases he : e.1 = key
    · rw [if_pos he]
      exact objGet_cons_self key v rest
    · rw [if_neg he]
      rw [objGet_cons_ne (e.1, e.2) _ key he]
      exact ih

/-- Reading another key after a write. -/
theorem objGet_objSet_ne {α : Type} (o : List (List Char × α))
    (key : List Char) (v : α) (k2 : List Char) (h : k2 ≠ key) :
    objGet (objSet o key v) k2 = objGet o k2 := by
  induction o with
  | nil =>
    rw [objSet, objGet_cons_ne (key, v) [] k2 (fun h2 => h h2.symm)]
  | cons e rest ih =>
    rw [objSet]
    by_cases he : e.1 = key
    · rw [if_pos he,
        objGet_cons_ne (key, v) rest k2 (fun h2 => h h2.symm),
        objGet_cons_ne e rest k2 (fun h2 => h (he ▸ h2).symm)]
    · rw [if_neg he]
      by_cases hk : e.1 = k2
      · have h1 : objGet ((e.1, e.2) :: objSet rest key v) k2 = some e.2 := by
          rw [show (e.1, e.2) = (k2, e.2) from by rw [hk]]
          exact objGet_cons_self k2 e.2 _
        have h2 : objGet (e :: rest) k2 = some e.2 := by
          rw [show e = (k2, e.2) from by rw [← hk]]
          exact objGet_cons_self k2 e.2 rest
        rw [h1, h2]
      · rw [objGet_cons_ne (e.1, e.2) _ k2 hk, objGet_cons_ne e rest k2 hk]
        exact ih

/-- A successful read is a binding. -/
theorem objGet_mem {α : Type} (o : List (List Char × α)) (k : List Char)
    (w : α) (h : objGet o k = some w) : (k, w) ∈ o := by
  rw [objGet] at h
  rcases Option.map_eq_some'.mp h with ⟨e, he, hw⟩
  have hm := List.mem_of_find?_eq_some he
  have hp := List.find?_some he
  have hk : e.1 = k := by simpa using hp
  have : e = (k, w) := by
    cases e
    cases hk
    cases hw
    rfl
  exact this ▸ hm

/-- A path below an empty prefix test is empty. -/
theorem pathLe_nil_right (p : List (List Char)) (h : pathLe p [] = true) :
    p = [] := by
  cases p with
  | nil => rfl
  | cons a as => simp [pathLe] at h

/-- Unfolding of `pathLe` on two conses. -/
theorem pathLe_cons (a b : List Char) (as bs : List (List Char)) :
    pathLe (a :: as) (b :: bs) = true ↔ a = b ∧ pathLe as bs = true := by
  simp [pathLe, Bool.and_eq_true]

/-- A non-empty list is its leading part plus its last element. -/
theorem dropLast_append_getLastD {α : Type} (l : List α) (h : l ≠ []) (x : α) :
    l.dropLast ++ [l.getLast?.getD x] = l := by
  induction l with
  | nil => exact absurd rfl h
  | cons a t ih =>
    cases t with
    | nil => rfl
    | cons b t2 =>
      rw [List.dropLast_cons₂, List.getLast?_cons_cons, List.cons_append,
        ih (by simp)]

/-- Reading a one-step path in an object. -/
theorem valLookup_single (m : List (List Char × JVal)) (t : List Char) :
    valLookup (.obj m) [t] = objGet m t := by
  show (match objGet m t with
    | some w => valLookup w []
    | none => none) = objGet m t
  cases objGet m t with
  | none => rfl
  | some w => cases w <;> rfl

/-- Unfolding of `valLookup` on an object and a non-empty path. -/
theorem valLookup_obj_cons (m : List (List Char × JVal)) (t : List Char)
    (rest : List (List Char)) :
    valLookup (.obj m) (t :: rest) =
      (match objGet m t with
        | some w => valLookup w rest
        | none => none) := rfl

/-- Every non-empty prefix of the walked token path holds a map after the
walk: the levels `set` walks through are always objects. -/
theorem setPath_walked_levels_obj (tokens : List (List Char)) :
    ∀ (o : List (List Char × JVal)) (leaf : List Char) (v : JVal)
      (p : List (List Char)), p ≠ [] → pathLe p tokens = true →
      ∃ m, valLookup (.obj (setPath o tokens leaf v)) p = some (.obj m) := by
  induction tokens with
  | nil =>
    intro o leaf v p hp hle
    exact absurd (pathLe_nil_right p hle) hp
  | cons t ts ih =>
    intro o leaf v p hp hle
    rcases p with _ | ⟨p0, ps⟩
    · exact absurd rfl hp
    · obtain ⟨hpt, hps⟩ := (pathLe_cons p0 t ps ts).mp hle
      subst hpt
      rw [setPath]
      rcases ps with _ | ⟨q, qs⟩
      · exact ⟨setPath (setChild o p0) ts leaf v, by
          rw [valLookup_single, objGet_objSet_self]⟩
      · obtain ⟨m, hm⟩ := ih (setChild o p0) leaf v (q :: qs) (by simp) hps
        exact ⟨m, by
          rw [valLookup_obj_cons, objGet_objSet_self]
          exact hm⟩

/-- A pre-existing value strictly off the written path survives the walk:
the walk reuses expanded levels rather than replacing them. -/
theorem setPath_preserves_off_path (tokens : List (List Char)) :
    ∀ (o : List (List Char × JVal)) (leaf : List Char) (v : JVal)
      (p : List (List Char)) (k2 : List Char) (w : JVal),
      pathLe p tokens = true →
      pathLe (p ++ [k2]) (tokens ++ [leaf]) = false →
      valLookup (.obj o) (p ++ [k2]) = some w →
      valLookup (.obj (setPath o tokens leaf v)) (p ++ [k2]) = some w := by
  induction tokens with
  | nil =>
    intro o leaf v p k2 w hle hoff hval
    have hp := pathLe_nil_right p hle
    subst hp
    have hk2 : k2 ≠ leaf := by
      intro he
      rw [List.nil_append, he] at hoff
      simp [pathLe] at hoff
    rw [List.nil_append, valLookup_single] at hval ⊢
    rw [setPath, objGet_objSet_ne o leaf v k2 hk2]
    exact hval
  | cons t ts ih =>
    intro o leaf v p k2 w hle hoff hval
    rcases p with _ | ⟨p0, ps⟩
    · have hk2 : k2 ≠ t := by
        intro he
        rw [List.nil_append, List.cons_append, he] at hoff
        simp [pathLe] at hoff
      rw [List.nil_append, valLookup_single] at hval ⊢
      rw [setPath, objGet_objSet_ne o t _ k2 hk2]
      exact hval
    · obtain ⟨hpt, hps⟩ := (pathLe_cons p0 t ps ts).mp hle
      subst hpt
      rw [List.cons_append, valLookup_obj_cons] at hval
      rcases hget : objGet o p0 with _ | u
      · rw [hget] at hval
        exact absurd hval (by simp)
      · rw [hget] at hval
        rw [List.cons_append, setPath, valLookup_obj_cons, objGet_objSet_self]
        have hoff2 : pathLe (ps ++ [k2]) (ts ++ [leaf]) = false := by
          rw [List.cons_append, List.cons_append] at hoff
          cases hb : pathLe (ps ++ [k2]) (ts ++ [leaf]) with
          | false => rfl
          | true =>
            rw [show pathLe (p0 :: (ps ++ [k2])) (p0 :: (ts ++ [leaf])) =
              ((p0 == p0) && pathLe (ps ++ [k2]) (ts ++ [leaf])) from rfl, hb] at hoff
            simp at hoff
        rcases u with s | m
        · rcases ps with _ | ⟨q, qs⟩ <;> simp [valLookup] at hval
        · have hchild : setChild o p0 = m := by
            rw [setChild, hget]
          show valLookup (.obj (setPath (setChild o p0) ts leaf v)) (ps ++ [k2]) = some w
          rw [hchild]
          exact ih m leaf v ps k2 w hps hoff2 hval

/-- C6 (amended): while walking a key's non-leaf tokens, `set` never
overwrites an already-expanded intermediate level with a scalar: after the
insertion every non-empty prefix of the key's walked token path holds a map,
and any pre-existing value strictly off the key's full dotted path is
preserved. (Only the leaf assignment can replace an expanded level, when a
later key's full path coincides with it — see the counterexample.) -/
theorem set_intermediate_levels_stay_maps (o : List (List Char × JVal))
    (key : List Char) (v : List Char) (p : List (List Char)) (k2 : List Char)
    (w : JVal) :
    (p ≠ [] → pathLe p (splitDot key).dropLast = true →
      ∃ m, valLookup (.obj (jsSet o key (.str v))) p = some (.obj m)) ∧
    (pathLe p (splitDot key).dropLast = true →
      pathLe (p ++ [k2]) (splitDot key) = false →
      valLookup (.obj o) (p ++ [k2]) = some w →
      valLookup (.obj (jsSet o key (.str v))) (p ++ [k2]) = some w) := by
  constructor
  · intro hp hle
    exact setPath_walked_levels_obj (splitDot key).dropLast o
      ((splitDot key).getLast?.getD []) (.str v) p hp hle
  · intro hle hoff hval
    have hsplit : (splitDot key).dropLast ++ [(splitDot key).getLast?.getD []] =
        splitDot key :=
      dropLast_append_getLastD (splitDot key) (splitDot_ne_nil key) []
    rw [← hsplit] at hoff
    exact setPath_preserves_off_path (splitDot key).dropLast o
      ((splitDot key).getLast?.getD []) (.str v) p k2 w hle hoff hval

/-- C6 witness: inserting `a.b.c` into `{a: {keep: "0"}}` keeps the levels
`a` and `a.b` as maps and preserves the off-path binding `a.keep`. -/
theorem set_intermediate_levels_stay_maps_witness :
    ([chars "a"] : List (List Char)) ≠ [] ∧
      pathLe [chars "a"] (splitDot (chars "a.b.c")).dropLast = true ∧
      pathLe [chars "a", chars "keep"] (splitDot (chars "a.b.c")) = false ∧
      valLookup (.obj [(chars "a", .obj [(chars "keep", .str (chars "0"))])])
        [chars "a", chars "keep"] = some (.str (chars "0")) ∧
      (∃ m, valLookup (.obj (jsSet
          [(chars "a", .obj [(chars "keep", .str (chars "0"))])]
          (chars "a.b.c") (.str (chars "1")))) [chars "a"] = some (.obj m)) ∧
      valLookup (.obj (jsSet
          [(chars "a", .obj [(chars "keep", .str (chars "0"))])]
          (chars "a.b.c") (.str (chars "1")))) [chars "a", chars "keep"] =
        some (.str (chars "0")) := by
  have h := set_intermediate_levels_stay_maps
    [(chars "a", .obj [(chars "keep", .str (chars "0"))])]
    (chars "a.b.c") (chars "1") [chars "a"] (chars "keep") (.str (chars "0"))
  refine ⟨by decide, by decide, by decide, rfl, h.1 (by decide) (by decide), ?_⟩
  have h2 := h.2 (by decide) (by decide) rfl
  exact h2

/-- C6 counterexample: with the flat map `{"a.b": "1", "a": "2"}` inserted in
that order, the first key expands the level `a` into the map `{b: "1"}`, and
the later key `a` overwrites that already-expanded level with the scalar
`"2"` at its leaf assignment. -/
theorem set_overwrites_expanded_level_cex :
    structureRecords [(chars "a.b", chars "1")] =
        [(chars "a", .obj [(chars "b", .str (chars "1"))])] ∧
      structureRecords [(chars "a.b", chars "1"), (chars "a", chars "2")] =
        [(chars "a", .str (chars "2"))] :=
  ⟨rfl, rfl⟩

/-- `avoids` at the empty path is absurd. -/
theorem avoids_nil (v : JVal) : ¬ avoids v [] := by
  cases v <;> exact fun h => h

/-- `avoids` unfolded on an object and a non-empty path. -/
theorem avoids_obj_cons (m : List (List Char × JVal)) (t : List Char)
    (rest : List (List Char)) :
    avoids (.obj m) (t :: rest) ↔ ∀ kv ∈ m, kv.1 = t → avoids kv.2 rest :=
  Iff.rfl

/-- `avoids` holds trivially on strings and non-empty paths. -/
theorem avoids_str_cons (s : List Char) (t : List Char)
    (rest : List (List Char)) : avoids (.str s) (t :: rest) :=
  trivial

/-- `avoids` holds on the empty object and any non-empty path. -/
theorem avoids_empty_obj (p : List (List Char)) (hp : p ≠ []) :
    avoids (.obj []) p := by
  rcases p with _ | ⟨t, rest⟩
  · exact absurd rfl hp
  · exact (avoids_obj_cons [] t rest).mpr (fun kv hkv => absurd hkv (by simp))

/-- Inserting a string value along a path that does not extend `p` preserves
path avoidance: `set` creates values only along its own dotted path. -/
theorem avoids_setPath (tokens : List (List Char)) :
    ∀ (o : List (List Char × JVal)) (leaf : List Char) (s : List Char)
      (p : List (List Char)), avoids (.obj o) p →
      pathLe p (tokens ++ [leaf]) = false →
      avoids (.obj (setPath o tokens leaf (.str s))) p := by
  induction tokens with
  | nil =>
    intro o leaf s p hav hoff
    rcases p with _ | ⟨t, rest⟩
    · exact absurd hav (avoids_nil _)
    · rw [List.nil_append] at hoff
      rw [setPath, avoids_obj_cons]
      intro kv hkv hk1
      rcases objSet_mem o leaf (.str s) kv.1 kv.2 hkv with ⟨hk, hw⟩ | hmem
      · rcases rest with _ | ⟨r, rs⟩
        · exfalso
          apply absurd hoff
          rw [show pathLe [t] [leaf] = ((t == leaf) && true) from rfl,
            show t = leaf from hk ▸ hk1.symm ▸ rfl]
          simp
        · rw [hw]
          exact avoids_str_cons s r rs
      · exact ((avoids_obj_cons o t rest).mp hav) kv hmem hk1
  | cons t0 ts ih =>
    intro o leaf s p hav hoff
    rcases p with _ | ⟨t, rest⟩
    · exact absurd hav (avoids_nil _)
    · rw [setPath, avoids_obj_cons]
      intro kv hkv hk1
      rcases objSet_mem o t0 _ kv.1 kv.2 hkv with ⟨hk, hw⟩ | hmem
      · have ht : t = t0 := hk ▸ hk1.symm ▸ rfl
        subst ht
        have hoff2 : pathLe rest (ts ++ [leaf]) = false := by
          rw [List.cons_append,
            show pathLe (t :: rest) (t :: (ts ++ [leaf])) =
              ((t == t) && pathLe rest (ts ++ [leaf])) from rfl] at hoff
          simpa using hoff
        have hrest_ne : rest ≠ [] := by
          intro he
          rw [he] at hoff2
          simp [pathLe] at hoff2
        have hchild : avoids (.obj (setChild o t)) rest := by
          rcases hget : objGet o t with _ | u
          · rw [setChild, hget]
            exact avoids_empty_obj rest hrest_ne
          · rcases u with s2 | m
            · rw [setChild, hget]
              exact avoids_empty_obj rest hrest_ne
            · have hm := objGet_mem o t _ hget
              have h2 := ((avoids_obj_cons o t rest).mp hav) (t, .obj m) hm rfl
              rw [setChild, hget]
              exact h2
        rw [hw]
        exact ih (setChild o t) leaf s rest hchild hoff2
      · exact ((avoids_obj_cons o t rest).mp hav) kv hmem hk1

/-- Structuring a flat record map whose keys all avoid the path `p` yields a
tree avoiding `p`. -/
theorem avoids_structure_fold (p : List (List Char)) (hp : p ≠ []) :
    ∀ (flat : List (List Char × List Char)) (acc : List (List Char × JVal)),
      avoids (.obj acc) p →
      (∀ kv ∈ flat, pathLe p (splitDot kv.1) = false) →
      avoids (.obj (flat.foldl (fun a kv => jsSet a kv.1 (.str kv.2)) acc)) p := by
  intro flat
  induction flat with
  | nil => intro acc hacc _; exact hacc
  | cons kv rest ih =>
    intro acc hacc hall
    rw [List.foldl_cons]
    apply ih
    · rw [jsSet]
      apply avoids_setPath _ acc _ kv.2 p hacc
      rw [dropLast_append_getLastD (splitDot kv.1) (splitDot_ne_nil kv.1) []]
      exact hall kv (by simp)
    · exact fun x hx => hall x (List.mem_cons_of_mem kv hx)

/-- No record key extends the path `p` (as a dotted path), so the structured
tree avoids `p`. -/
theorem avoids_structureRecords (flat : List (List Char × List Char))
    (p : List (List Char)) (hp : p ≠ [])
    (hall : ∀ kv ∈ flat, pathLe p (splitDot kv.1) = false) :
    avoids (.obj (structureRecords flat)) p :=
  avoids_structure_fold p hp flat [] (avoids_empty_obj p hp) hall

/-- If every `T`-binding of the crypto subtree avoids `address`, the
`addresses` fold never assigns `T`. -/
theorem addr_fold_none (T : List Char) :
    ∀ (m : List (List Char × JVal)) (acc : List (List Char × JVal)),
      (∀ kv ∈ m, kv.1 = T → avoids kv.2 [chars "address"]) →
      objGet acc T = none → objGet (m.foldl addrStep acc) T = none := by
  intro m
  induction m with
  | nil => intro acc _ hacc; exact hacc
  | cons kv rest ih =>
    obtain ⟨k0, v0⟩ := kv
    intro acc hall hacc
    rw [List.foldl_cons]
    have htail : ∀ x ∈ rest, x.1 = T → avoids x.2 [chars "address"] :=
      fun x hx => hall x (List.mem_cons_of_mem (k0, v0) hx)
    rcases v0 with s | vm
    · exact ih acc htail hacc
    · have hstep : addrStep acc (k0, .obj vm) =
          (match objGet vm (chars "address") with
            | some a => if truthy a then objSet acc k0 a else acc
            | none => acc) := rfl
      rcases hga : objGet vm (chars "address") with _ | a
      · rw [hstep, hga]
        exact ih acc htail hacc
      · by_cases hk : k0 = T
        · exfalso
          have hmem := objGet_mem vm (chars "address") a hga
          have hav := hall (k0, .obj vm) (by simp) hk
          exact avoids_nil a (((avoids_obj_cons vm (chars "address") []).mp hav)
            (chars "address", a) hmem rfl)
        · have hstep2 : addrStep acc (k0, .obj vm) =
              if truthy a = true then objSet acc k0 a else acc := by
            rw [hstep, hga]
          cases htr : truthy a with
          | false =>
            rw [hstep2, if_neg (by simp [htr])]
            exact ih acc htail hacc
          | true =>
            rw [hstep2, if_pos htr]
            refine ih _ htail ?_
            rw [objGet_objSet_ne acc k0 a T (fun he => hk he.symm)]
            exact hacc

/-- When no record key extends `crypto.<T>.address` as a dotted path, the
extracted address map has no `T` entry. -/
theorem extract_addresses_none (flat : List (List Char × List Char))
    (T : List Char)
    (hall : ∀ kv ∈ flat,
      pathLe [chars "crypto", T, chars "address"] (splitDot kv.1) = false) :
    objGet (extractAddresses (structureRecords flat)) T = none := by
  have hav := avoids_structureRecords flat [chars "crypto", T, chars "address"]
    (by simp) hall
  have hunfold : extractAddresses (structureRecords flat) =
      (match objGet (structureRecords flat) (chars "crypto") with
        | some (.obj m) => m.foldl addrStep []
        | _ => []) := rfl
  rcases hg : objGet (structureRecords flat) (chars "crypto") with _ | u
  · rw [hunfold, hg]
    rfl
  · rcases u with s | m
    · rw [hunfold, hg]
      rfl
    · rw [hunfold, hg]
      show objGet (m.foldl addrStep []) T = none
      apply addr_fold_none T m []
      · have hmem := objGet_mem _ _ _ hg
        have h2 := ((avoids_obj_cons _ (chars "crypto") [T, chars "address"]).mp hav)
          (chars "crypto", .obj m) hmem rfl
        exact (avoids_obj_cons m T [chars "address"]).mp h2
      · rfl

/-- A resolved response with a non-null owner and no address entry for the
ticker produces `UnspecifiedCurrency` from `Zns.address`. -/
theorem znsAddress_of_resolve (b : ZnsBackend) (d ticker : List Char)
    (R : ResolutionResponse) (hres : znsResolve b d = some R)
    (hown : isNullAddress R.owner = false)
    (hnone : objGet R.addresses (ticker.map Char.toUpper) = none) :
    znsAddress b d ticker = .error (.resolution .unspecifiedCurrency) := by
  rw [znsAddress, hres]
  rw [show ((some R).bind fun r => r.owner) = R.owner from rfl, hown]
  rw [if_neg (by simp)]
  show (match objGet R.addresses (ticker.map Char.toUpper) with
    | some a =>
      if truthy a then Except.ok a
      else Except.error (JsError.resolution .unspecifiedCurrency)
    | none => Except.error (JsError.resolution .unspecifiedCurrency)) =
    Except.error (JsError.resolution .unspecifiedCurrency)
  rw [hnone]

/-- C7 (amended): for every registered domain (registry record present, owner
not a null address) whose resolver record set contains no entry whose key
equals or extends `crypto.<TICKER>.address` as a dotted path, `Zns.address`
fails with `UnspecifiedCurrency` — not `RecordNotFound`. (The claim as stated
only excludes the exact key: a key strictly extending the path, like
`crypto.BTC.address.x`, defeats it — see the counterexample.) -/
theorem zns_address_missing_ticker_unspecified (b : ZnsBackend)
    (d ticker ow rs : List Char)
    (h1 : znsGetRecordsAddresses b d = some (ow, rs))
    (h2 : isNullAddress (some ow) = false)
    (h3 : ∀ kv ∈ znsGetResolverRecords b rs,
      pathLe [chars "crypto", ticker.map Char.toUpper, chars "address"]
        (splitDot kv.1) = false) :
    znsAddress b d ticker = .error (.resolution .unspecifiedCurrency) := by
  have hempty : ow.isEmpty = false := by
    cases he : ow.isEmpty
    · rfl
    · rw [show isNullAddress (some ow) =
        (ow.isEmpty || nullAddressValues.contains ow) from rfl, he] at h2
      simp at h2
  have hres : znsResolve b d = some
      { addresses := extractAddresses (structureRecords (znsGetResolverRecords b rs))
        owner := some ow
        ttl :=
          match valLookup (.obj (structureRecords (znsGetResolverRecords b rs)))
            [chars "ttl"] with
          | some (.str s) => parseIntD s
          | _ => 0 } := by
    have h0 : znsResolve b d = some
        { addresses := extractAddresses (structureRecords (znsGetResolverRecords b rs))
          owner := if ow.isEmpty then none else some ow
          ttl :=
            match valLookup (.obj (structureRecords (znsGetResolverRecords b rs)))
              [chars "ttl"] with
            | some (.str s) => parseIntD s
            | _ => 0 } := by
      rw [znsResolve, h1]
    rw [h0, if_neg (by simp [hempty])]
  exact znsAddress_of_resolve b d ticker _ hres h2
    (extract_addresses_none (znsGetResolverRecords b rs)
      (ticker.map Char.toUpper) h3)

/-- Concrete ZNS backend used by the C7 witness: one registry record, one
resolver record `crypto.ETH.address`. -/
def znsBackendEth : ZnsBackend :=
  { registryAddress := some (chars "zil1jcgu2wlx6xejqk9jw3aaankw6lsjzeunx2j0jz")
    registry := fun _ => some (chars "zil1owner", chars "0xresolver")
    resolverRecords := fun _ => [(chars "crypto.ETH.address", chars "0xe1")]
    toBech32 := fun a => a
    toChecksum := fun a => a }

/-- C7 witness: on the registered `brad.zil` whose records hold only
`crypto.ETH.address`, requesting `BTC` yields `UnspecifiedCurrency`. -/
theorem zns_address_missing_ticker_unspecified_witness :
    znsAddress znsBackendEth (chars "brad.zil") (chars "BTC") =
      .error (.resolution .unspecifiedCurrency) :=
  zns_address_missing_ticker_unspecified znsBackendEth (chars "brad.zil")
    (chars "BTC") (chars "zil1owner") (chars "0xresolver") rfl (by decide)
    (by intro kv hkv; rw [List.mem_singleton.mp hkv]; decide)

/-- Concrete ZNS backend for the C7 counterexample: the resolver records hold
`crypto.BTC.address.x` but no `crypto.BTC.address`. -/
def znsBackendBtcNested : ZnsBackend :=
  { registryAddress := some (chars "zil1jcgu2wlx6xejqk9jw3aaankw6lsjzeunx2j0jz")
    registry := fun _ => some (chars "zil1owner", chars "0xresolver")
    resolverRecords := fun _ => [(chars "crypto.BTC.address.x", chars "y")]
    toBech32 := fun a => a
    toChecksum := fun a => a }

/-- C7 counterexample: `brad.zil` is registered and its record set contains no
`crypto.BTC.address` entry (only `crypto.BTC.address.x`), yet
`address("brad.zil", "BTC")` does not fail with `UnspecifiedCurrency`: the
structuring turns the nested key into a map at `crypto.BTC.address`, which is
truthy and is returned. -/
theorem zns_address_missing_ticker_cex :
    znsAddress znsBackendBtcNested (chars "brad.zil") (chars "BTC") =
        .ok (.obj [(chars "x", .str (chars "y"))]) ∧
      znsAddress znsBackendBtcNested (chars "brad.zil") (chars "BTC") ≠
        .error (.resolution .unspecifiedCurrency) := by
  have h : znsAddress znsBackendBtcNested (chars "brad.zil") (chars "BTC") =
      .ok (.obj [(chars "x", .str (chars "y"))]) := rfl
  exact ⟨h, by rw [h]; simp⟩

/-- C8: a domain with no registry record on the ZNS backend makes
`Zns.address` fail with `UnregisteredDomain`, while `Zns.owner` on the same
domain returns null (its embedding is a total function into `Option`, so it
cannot throw). -/
theorem zns_unregistered_address_vs_owner (b : ZnsBackend)
    (d ticker : List Char) (h : b.registry (znsNamehash d) = none) :
    znsAddress b d ticker = .error (.resolution .unregisteredDomain) ∧
      znsOwner b d = none := by
  have hra : znsGetRecordsAddresses b d = none := by
    rw [znsGetRecordsAddresses]
    by_cases hg : (znsIsSupportedDomain d && b.registryAddress.isSome) = true
    · rw [if_pos hg, h]
    · rw [if_neg hg]
  have hres : znsResolve b d = none := by
    rw [znsResolve, hra]
  constructor
  · rw [znsAddress, hres]
    rfl
  · rw [znsOwner, hres]

/-- Concrete ZNS backend with an empty registry, for the C8 witness. -/
def znsBackendEmpty : ZnsBackend :=
  { registryAddress := some (chars "zil1jcgu2wlx6xejqk9jw3aaankw6lsjzeunx2j0jz")
    registry := fun _ => none
    resolverRecords := fun _ => []
    toBech32 := fun a => a
    toChecksum := fun a => a }

/-- C8 witness: `test.zil` has no registry record, so `address` throws
`UnregisteredDomain` and `owner` returns null. -/
theorem zns_unregistered_address_vs_owner_witness :
    znsAddress znsBackendEmpty (chars "test.zil") (chars "ETH") =
        .error (.resolution .unregisteredDomain) ∧
      znsOwner znsBackendEmpty (chars "test.zil") = none :=
  zns_unregistered_address_vs_owner znsBackendEmpty (chars "test.zil")
    (chars "ETH") rfl

/-- Writing an absent key appends the binding. -/
theorem objSet_not_mem {α : Type} (o : List (List Char × α)) (k : List Char)
    (v : α) (h : k ∉ o.map Prod.fst) : objSet o k v = o ++ [(k, v)] := by
  induction o with
  | nil => rfl
  | cons e rest ih =>
    have hmem : e.1 ∈ (e :: rest).map Prod.fst :=
      List.mem_map_of_mem Prod.fst (List.mem_cons_self e rest)
    have hne : e.1 ≠ k := fun he2 => h (he2 ▸ hmem)
    have htail : k ∉ rest.map Prod.fst := fun hm =>
      h (by rw [List.map_cons]; exact List.mem_cons_of_mem e.1 hm)
    rw [objSet, if_neg hne, ih htail]
    rfl

/-- The filtering fold of `allNonEmptyRecords`, generalised over a seed whose
keys are fresh. -/
theorem allNonEmpty_fold_filter :
    ∀ (records : List (List Char × List Char))
      (acc : List (List Char × List Char)),
      (∀ k ∈ acc.map Prod.fst, k ∉ records.map Prod.fst) →
      (records.map Prod.fst).Nodup →
      records.foldl
          (fun a kv => if kv.2.isEmpty then a else objSet a kv.1 kv.2) acc =
        acc ++ records.filter (fun kv => !kv.2.isEmpty) := by
  intro records
  induction records with
  | nil => intro acc _ _; rw [List.foldl_nil, List.filter_nil, List.append_nil]
  | cons kv rest ih =>
    intro acc hdisj hnodup
    have hnodup2 : (rest.map Prod.fst).Nodup := by
      rw [List.map_cons] at hnodup
      exact hnodup.of_cons
    simp only [List.foldl_cons]
    cases he : kv.2.isEmpty with
    | true =>
      rw [if_pos rfl,
        List.filter_cons_of_neg (by simp [he]),
        ih acc (fun k hk => fun hm => hdisj k hk (by simp [hm])) hnodup2]
    | false =>
      have hfresh : kv.1 ∉ acc.map Prod.fst := by
        intro hm
        exact hdisj kv.1 hm (by simp)
      rw [if_neg (by simp), objSet_not_mem acc kv.1 kv.2 hfresh,
        List.filter_cons_of_pos (by simp [he]),
        ih (acc ++ [(kv.1, kv.2)]) ?_ hnodup2]
      · rw [List.append_assoc]
        rfl
      · intro k hk
        rw [List.map_append] at hk
        rcases List.mem_append.mp hk with hk1 | hk1
        · exact fun hm => hdisj k hk1 (by simp [hm])
        · rw [List.map_cons] at hnodup
          have hks : k = kv.1 := by simpa using hk1
          rw [hks]
          exact (List.nodup_cons.mp hnodup).1

/-- C10: over a record map with unique keys (as `Object.entries` of the
`allRecords` result produces), `allNonEmptyRecords` returns exactly the
entries whose values are non-empty, in order and unchanged: truthy-valued
keys survive, falsy-valued (empty-string) keys are dropped. -/
theorem allNonEmptyRecords_is_filter (records : List (List Char × List Char))
    (h : (records.map Prod.fst).Nodup) :
    allNonEmptyRecords records = records.filter (fun kv => !kv.2.isEmpty) := by
  rw [allNonEmptyRecords, allNonEmpty_fold_filter records [] (by simp) h]
  rfl

/-- C10 witness: a three-entry record map with one empty value keeps exactly
the two non-empty entries. -/
theorem allNonEmptyRecords_is_filter_witness :
    ((([(chars "a", chars "1"), (chars "b", chars ""), (chars "c", chars "2")] :
        List (List Char × List Char)).map Prod.fst).Nodup) ∧
      allNonEmptyRecords
          [(chars "a", chars "1"), (chars "b", chars ""), (chars "c", chars "2")] =
        [(chars "a", chars "1"), (chars "c", chars "2")] :=
  ⟨by decide,
    (allNonEmptyRecords_is_filter
      [(chars "a", chars "1"), (chars "b", chars ""), (chars "c", chars "2")]
      (by decide)).trans (by decide)⟩
